import Mathlib

/-!
# Verification of `ONTraC/niche_trajectory/_niche_trajectory.py`

Shallow embedding of the niche-trajectory core: the brute-force ("BF") and
Held-Karp ("TSP") path solvers of `get_niche_trajectory_path`, the score
mapper `trajectory_path_to_NC_score`, the per-sample projection inside
`niche_to_cell_NTScore`, and the artifact check of `load_consolidate_data`.

Matrices are embedded as total functions `Nat → Nat → ℚ` (the code only ever
reads entries at indices below `n`); Python floats are modelled as exact
rationals.  Python control paths that raise (the `UnboundLocalError` from the
`pop(len(path) - 1)` line in the TSP branch, the fall-through when the
strategy string is unrecognized) are modelled by `Option`/`none`.
-/

namespace ONTraC

/-- Connectivity matrices, embedded as total functions; the code only reads
entries `(i, j)` with `i, j < n`. -/
abbrev Mat := Nat → Nat → ℚ

/-- Build a matrix from a row-major list of rows (out-of-range entries read 0,
matching that the code never reads them). -/
def matOfList (rows : List (List ℚ)) : Mat :=
  fun i j => ((rows.getD i []).getD j 0)

/-- `sum(matrix[path[i], path[i+1]] for i in range(len(path)-1))`: the
connectivity ("cost") of an open path, as accumulated by both branches of
`get_niche_trajectory_path`. -/
def pathWeight (m : Mat) : List Nat → ℚ
  | [] => 0
  | [_] => 0
  | a :: b :: rest => m a b + pathWeight m (b :: rest)

/-- Fuel-indexed helper for `permsLex` (structural recursion on the fuel so
that the enumeration evaluates by kernel reduction; the fuel is always at
least `l.length`, which keeps the out-of-fuel branch unreachable). -/
def permsLexF : Nat → List Nat → List (List Nat)
  | 0, _ => [[]]
  | fuel + 1, l =>
      if l = [] then [[]]
      else
        l.attach.flatMap fun x =>
          (permsLexF fuel (l.erase x.1)).map (x.1 :: ·)

/-- `itertools.permutations(l)` for a duplicate-free list `l`: all
permutations, in the order Python enumerates them (for sorted input this is
lexicographic: each element in list order, prefixed to the permutations of
the rest). -/
def permsLex (l : List Nat) : List (List Nat) :=
  permsLexF l.length l

/-- One step of the BF loop: starting from `max_connectivity = -inf`
(modelled by `none`), replace the stored best exactly when the new
permutation's connectivity is strictly greater. -/
def bfStep (m : Mat) (acc : Option (ℚ × List Nat)) (p : List Nat) :
    Option (ℚ × List Nat) :=
  match acc with
  | none => some (pathWeight m p, p)
  | some (c, best) =>
      if c < pathWeight m p then some (pathWeight m p, p) else some (c, best)

/-- The BF branch of `get_niche_trajectory_path`: scan all permutations of
`range(n)` and keep the first one attaining the maximum connectivity.  The
`none` fallback is the initial `niche_trajectory_path = []` (it is reached
only on an empty permutation list, which never happens). -/
def bfPath (m : Mat) (n : Nat) : List Nat :=
  match (permsLex (List.range n)).foldl (bfStep m) none with
  | some (_, p) => p
  | none => []

/-- Python's `<` on lists of ints (lexicographic, a strict prefix is
smaller). -/
def listLtB : List Nat → List Nat → Bool
  | [], [] => false
  | [], _ :: _ => true
  | _ :: _, [] => false
  | a :: as, b :: bs =>
      if a < b then true else if b < a then false else listLtB as bs

/-- Python's `>` on `(cost, path)` tuples: compare costs, then paths
lexicographically. -/
def pairGtB (x y : ℚ × List Nat) : Bool :=
  decide (y.1 < x.1) || (decide (x.1 = y.1) && listLtB y.2 x.2)

/-- Python's `max` over a list of `(cost, path)` tuples: scan left to right,
replacing the current best exactly when the new item compares strictly
greater (so the first of any equal maxima wins).  The `[]` default is never
reached by the code. -/
def pyMaxStep (acc y : ℚ × List Nat) : ℚ × List Nat :=
  if pairGtB y acc then y else acc

def pyMaxL : List (ℚ × List Nat) → ℚ × List Nat
  | [] => (0, [])
  | x :: xs => xs.foldl pyMaxStep x

/-- The Held-Karp table `C` of the TSP branch, as a recursive function:
`hk m S k` is `C[(bits(S), k)]` for `k ∈ S ⊆ {1,…,n-1}` (the dict key
`bits(S)` is determined by the set `S`, kept here as an increasing list).
Base case (`subset = {k}`, from the init loop): `(m[0][k], [0, k])`.
Transition: `max` (Python tuple max) over `res`, built in increasing order of
the predecessor `mm ∈ S \ {k}`, of
`(C[(S\{k}, mm)].cost + m[mm][k], C[(S\{k}, mm)].path ++ [k])`. -/
def hkF (m : Mat) : Nat → List Nat → Nat → ℚ × List Nat
  | 0, _, k => (m 0 k, [0, k])
  | fuel + 1, S, k =>
      if k ∈ S ∧ S.erase k ≠ [] then
        pyMaxL ((S.erase k).map fun mm =>
          ((hkF m fuel (S.erase k) mm).1 + m mm k,
            (hkF m fuel (S.erase k) mm).2 ++ [k]))
      else (m 0 k, [0, k])

def hk (m : Mat) (S : List Nat) (k : Nat) : ℚ × List Nat :=
  hkF m S.length S k

/-- The TSP branch up to `niche_trajectory_path.append(0)`: close the cycle.
`full = [1, …, n-1]`; `res = [(C[(full, k)].cost + m[k][0], C[(full, k)].path)
for k in full]`; take the Python `max` and append `0`.  (For `n ≤ 1` the
Python code raises `ValueError` on `max([])`; the model is only claimed
faithful for `n ≥ 2`, the spec's precondition, where `res` is nonempty.) -/
def tspClosed (m : Mat) (n : Nat) : List Nat :=
  (pyMaxL ((List.range' 1 (n - 1)).map fun k =>
    ((hk m (List.range' 1 (n - 1)) k).1 + m k 0,
      (hk m (List.range' 1 (n - 1)) k).2))).2 ++ [0]

/-- `min(dists)` (Python `min` over a nonempty list; `0` default never
reached). -/
def listMinQ : List ℚ → ℚ
  | [] => 0
  | x :: xs => xs.foldl min x

/-- The list of consecutive (ordered) pairs of a path. -/
def consecPairs (l : List Nat) : List (Nat × Nat) := l.zip l.tail

/-- The edge weights along a closed path: `dists[i] =
m[path[i]][path[i+1]]` for `i in range(len(path) - 1)`, i.e. `m` applied to
the consecutive pairs of the path. -/
def cycleDists (m : Mat) (p : List Nat) : List ℚ :=
  List.zipWith m p p.tail

/-- `cut_index = dists.index(min(dists))`: position of the first weakest
edge. -/
def cutIndex (m : Mat) (p : List Nat) : Nat :=
  (cycleDists m p).indexOf (listMinQ (cycleDists m p))

/-- The weakest edge of the closed path, as the ordered pair
`(path[cut_index], path[cut_index + 1])` that the cut removes. -/
def weakestEdge (m : Mat) (p : List Nat) : Nat × Nat :=
  (p.getD (cutIndex m p) 0, p.getD (cutIndex m p + 1) 0)

/-- The "cut the shortest edge out from the cycle" block.  `p` is the closed
path.  The four Python cases in order: `start_index == len - 1` pops the last
element; `start_index == 0` pops the head and reverses; `start_index <
end_index` executes `niche_trajectory_path.pop(len(path) - 1)` where `path`
is a variable bound only in the BF branch — an `UnboundLocalError`, modelled
as `none`; otherwise the trailing element is popped and the two arcs around
the cut are swapped. -/
def cutSplice (p : List Nat) (si ei : Nat) : Option (List Nat) :=
  if si = p.length - 1 then
    some p.dropLast
  else if si = 0 then
    some ((p.drop 1).reverse)
  else if si < ei then
    none
  else
    some (p.dropLast.drop si ++ p.dropLast.take (ei + 1))

def cutCycle (m : Mat) (p : List Nat) : Option (List Nat) :=
  if p.getD (cutIndex m p) 0 < p.getD (cutIndex m p + 1) 0 then
    cutSplice p (cutIndex m p) (cutIndex m p + 1)
  else
    cutSplice p (cutIndex m p + 1) (cutIndex m p)

/-- The full TSP branch of `get_niche_trajectory_path`. -/
def tspPath (m : Mat) (n : Nat) : Option (List Nat) :=
  cutCycle m (tspClosed m n)

/-- `get_niche_trajectory_path(options, niche_adj_matrix)`, dispatching on
`options.trajectory_construct`.  For any other strategy string, the function
body falls through to `return niche_trajectory_path` with the variable never
assigned — an `UnboundLocalError`, modelled as `none`. -/
def get_niche_trajectory_path (strategy : String) (m : Mat) (n : Nat) :
    Option (List Nat) :=
  if strategy = "BF" then some (bfPath m n)
  else if strategy = "TSP" then tspPath m n
  else none

/-- `np.linspace(0, 1, n)` over exact rationals: `n` evenly spaced values
`i / (n - 1)` including both endpoints (`[0]` when `n = 1`, `[]` when
`n = 0`). -/
def linspace01 (n : Nat) : List ℚ :=
  (List.range n).map fun i =>
    if n ≤ 1 then 0 else Rat.divInt (Int.ofNat i) (Int.ofNat (n - 1))

/-- `trajectory_path_to_NC_score`: start from `np.zeros(len(path))` and, for
`i, index in enumerate(path)`, assign `score[index] = values[i]` with
`values = linspace(0, 1, len(path))`. -/
def trajectory_path_to_NC_score (path : List Nat) : List ℚ :=
  path.enum.foldl
    (fun score p => score.set p.2 ((linspace01 path.length).getD p.1 0))
    (List.replicate path.length 0)

/-- Column sum `niche_weight_matrix.sum(axis=0)` of one sample's niche
weight matrix (rows `j` = niches, columns `i` = cells). -/
def colSum (W : Mat) (nNiche : Nat) (i : Nat) : ℚ :=
  ∑ j ∈ Finset.range nNiche, W j i

/-- The per-sample core of `niche_to_cell_NTScore`: row `i` of
`(niche_weight_matrix / niche_weight_matrix.sum(axis=0)).T` dotted with the
sample's niche-level scores, i.e. the cell-level score of cell `i`. -/
def cellScore (W : Mat) (nNiche : Nat) (scores : Nat → ℚ) (i : Nat) : ℚ :=
  ∑ j ∈ Finset.range nNiche, W j i / colSum W nNiche i * scores j

/-- Modelled from the spec: `load_consolidate_data` guards on the existence
of `consolidate_s.csv.gz` and `consolidate_out_adj.csv.gz` and calls
`ONTraC.log.error` when either is missing.  `ONTraC/log.py` is not present
under `src/`; per the spec, a missing upstream artifact "fails fast before
any computation starts; no partial output is written", so `error` is
modelled as aborting with the logged message.  A file is `some contents`
when it exists, `none` when absent. -/
def load_consolidate_data (sFile adjFile : Option (List (List ℚ))) :
    Except String (List (List ℚ) × List (List ℚ)) :=
  match sFile, adjFile with
  | some s, some a => Except.ok (s, a)
  | _, _ =>
      Except.error
        "consolidate_s.csv.gz or consolidate_out_adj.csv.gz does not exist in GNN_dir directory."

/-- The spec's worked example: `matrix = [[0,5,1],[5,0,1],[1,1,0]]`. -/
def mExample : Mat := matOfList [[0, 5, 1], [5, 0, 1], [1, 1, 0]]

/-- A 4×4 non-negative matrix whose unique maximum-weight Hamiltonian cycle
is `[0, 1, 2, 3, 0]` with weakest edge `(1, 2)` in the interior of the cycle
and ascending endpoints: the input that drives the TSP cut into the
`start_index < end_index` case. -/
def mCrash : Mat :=
  matOfList [[0, 10, 0, 0], [0, 0, 1, 0], [0, 0, 0, 10], [10, 0, 0, 0]]

/-- The mirror image of `mCrash`: its maximum-weight Hamiltonian cycle is
`[0, 3, 2, 1, 0]` with weakest (interior) edge `(2, 1)`, descending, which
drives the cut into the arc-swapping case. -/
def mInterior : Mat :=
  matOfList [[0, 0, 0, 10], [10, 0, 0, 0], [0, 1, 0, 0], [0, 0, 10, 0]]

/-- A 2×2 non-negative matrix with `m[0][1] < m[1][0]`: the weakest edge of
the two-node cycle `[0, 1, 0]` is its first edge `(0, 1)`. -/
def mTwo : Mat := matOfList [[0, 1], [2, 0]]

/-- A square matrix with negative entries. -/
def mNeg : Mat := matOfList [[0, -1], [-1, 0]]

/-- The spec's Score Propagator example, as the niche-by-cell weight matrix
(rows = 2 niche clusters, columns = 3 cells): the transpose of the spec's
entity-by-aggregate `[[1,0],[0,1],[0.5,0.5]]`. -/
def wExample : Mat := matOfList [[1, 0, 1/2], [0, 1, 1/2]]

/-- The spec's example aggregate scores `[0.2, 0.8]`. -/
def scoresExample : Nat → ℚ := fun j => [(1 : ℚ)/5, 4/5].getD j 0

/-! ## Lemmas about the permutation enumeration and the BF scan -/

theorem permsLexF_congr (f1 : Nat) :
    ∀ (f2 : Nat) (l : List Nat), l.length ≤ f1 → l.length ≤ f2 →
      permsLexF f1 l = permsLexF f2 l := by
  induction f1 with
  | zero =>
      intro f2 l h1 h2
      have hl : l = [] := List.length_eq_zero.1 (Nat.le_zero.1 h1)
      subst hl
      cases f2 with
      | zero => rfl
      | succ f2 => simp [permsLexF]
  | succ f1 ih =>
      intro f2 l h1 h2
      cases f2 with
      | zero =>
          have hl : l = [] := List.length_eq_zero.1 (Nat.le_zero.1 h2)
          subst hl
          simp [permsLexF]
      | succ f2 =>
          rcases eq_or_ne l [] with rfl | hne
          · simp [permsLexF]
          · simp only [permsLexF, if_neg hne]
            congr 1
            funext x
            have hx := List.length_erase_add_one x.2
            rw [ih f2 (l.erase x.1) (by omega) (by omega)]

/-- The recursion equation of the permutation enumeration. -/
theorem permsLex_eq (l : List Nat) : permsLex l =
    if l = [] then [[]]
    else l.attach.flatMap fun x => (permsLex (l.erase x.1)).map (x.1 :: ·) := by
  rcases eq_or_ne l [] with rfl | hne
  · rfl
  · rw [if_neg hne, permsLex]
    obtain ⟨a, t, rfl⟩ := List.exists_cons_of_ne_nil hne
    show permsLexF (t.length + 1) (a :: t) = _
    rw [permsLexF, if_neg hne]
    congr 1
    funext x
    have hx := List.length_erase_add_one x.2
    rw [permsLex,
      permsLexF_congr t.length ((a :: t).erase x.1).length ((a :: t).erase x.1)
        (by simp only [List.length_cons] at hx; omega) (le_refl _)]

/-- Auxiliary description of the BF scan after the first permutation has been
absorbed: the running best `(c, p)` is replaced exactly by strictly greater
connectivities. -/
def firstMax (m : Mat) (c : ℚ) (p : List Nat) : List (List Nat) → ℚ × List Nat
  | [] => (c, p)
  | q :: l =>
      if c < pathWeight m q then firstMax m (pathWeight m q) q l
      else firstMax m c p l

theorem foldl_bfStep_eq_firstMax (m : Mat) (l : List (List Nat)) :
    ∀ (c : ℚ) (p : List Nat),
      l.foldl (bfStep m) (some (c, p)) = some (firstMax m c p l) := by
  induction l with
  | nil => intro c p; rfl
  | cons q l ih =>
      intro c p
      simp only [List.foldl_cons, bfStep, firstMax]
      split <;> apply ih

theorem firstMax_fst (m : Mat) (l : List (List Nat)) :
    ∀ (c : ℚ) (p : List Nat), c = pathWeight m p →
      (firstMax m c p l).1 = pathWeight m (firstMax m c p l).2 := by
  induction l with
  | nil => intro c p hc; exact hc
  | cons q l ih =>
      intro c p hc
      simp only [firstMax]
      split
      · exact ih _ _ rfl
      · exact ih _ _ hc

theorem le_firstMax_fst (m : Mat) (l : List (List Nat)) :
    ∀ (c : ℚ) (p : List Nat), c ≤ (firstMax m c p l).1 := by
  induction l with
  | nil => intro c p; exact le_refl _
  | cons q l ih =>
      intro c p
      simp only [firstMax]
      split
      · exact le_of_lt (lt_of_lt_of_le (by assumption) (ih _ _))
      · exact ih _ _

theorem firstMax_fst_ge (m : Mat) (l : List (List Nat)) :
    ∀ (c : ℚ) (p : List Nat) (x : List Nat), x ∈ l →
      pathWeight m x ≤ (firstMax m c p l).1 := by
  induction l with
  | nil => intro c p x hx; cases hx
  | cons q l ih =>
      intro c p x hx
      simp only [firstMax]
      rcases List.mem_cons.1 hx with rfl | hx
      · split
        · exact le_firstMax_fst m l _ _
        · exact le_trans (le_of_not_lt (by assumption)) (le_firstMax_fst m l _ _)
      · split <;> exact ih _ _ _ hx

theorem firstMax_snd_mem (m : Mat) (l : List (List Nat)) :
    ∀ (c : ℚ) (p : List Nat),
      (firstMax m c p l).2 = p ∨ (firstMax m c p l).2 ∈ l := by
  induction l with
  | nil => intro c p; exact Or.inl rfl
  | cons q l ih =>
      intro c p
      simp only [firstMax]
      split
      · rcases ih (pathWeight m q) q with h | h
        · exact Or.inr (List.mem_cons.2 (Or.inl h))
        · exact Or.inr (List.mem_cons.2 (Or.inr h))
      · rcases ih c p with h | h
        · exact Or.inl h
        · exact Or.inr (List.mem_cons.2 (Or.inr h))

theorem firstMax_eq_of_fst_eq (m : Mat) (l : List (List Nat)) :
    ∀ (c : ℚ) (p : List Nat), (firstMax m c p l).1 = c →
      firstMax m c p l = (c, p) := by
  induction l with
  | nil => intro c p _; rfl
  | cons q l ih =>
      intro c p hfst
      simp only [firstMax] at hfst ⊢
      by_cases hq : c < pathWeight m q
      · rw [if_pos hq] at hfst ⊢
        exfalso
        have h1 : pathWeight m q ≤ (firstMax m (pathWeight m q) q l).1 :=
          le_firstMax_fst m l _ _
        rw [hfst] at h1
        exact absurd (lt_of_lt_of_le hq h1) (lt_irrefl c)
      · rw [if_neg hq] at hfst ⊢
        exact ih _ _ hfst

theorem firstMax_find (m : Mat) (l : List (List Nat)) :
    ∀ (c : ℚ) (p : List Nat), c < (firstMax m c p l).1 →
      l.find? (fun x => decide (pathWeight m x = (firstMax m c p l).1)) =
        some (firstMax m c p l).2 := by
  induction l with
  | nil => intro c p h; exact absurd h (lt_irrefl c)
  | cons q l ih =>
      intro c p hlt
      simp only [firstMax] at hlt ⊢
      by_cases hq : c < pathWeight m q
      · simp only [if_pos hq] at hlt ⊢
        rcases eq_or_lt_of_le (le_firstMax_fst m l (pathWeight m q) q) with heq | hgt
        · have := firstMax_eq_of_fst_eq m l (pathWeight m q) q heq.symm
          rw [this]
          simp
        · rw [List.find?_cons_of_neg _ (by simp; exact ne_of_lt hgt)]
          exact ih _ _ hgt
      · simp only [if_neg hq] at hlt ⊢
        have hqle : pathWeight m q ≤ c := le_of_not_lt hq
        rw [List.find?_cons_of_neg _ (by simp; exact ne_of_lt (lt_of_le_of_lt hqle hlt))]
        exact ih _ _ hlt

theorem perm_of_mem_permsLex (l : List Nat) :
    ∀ q, q ∈ permsLex l → q.Perm l := by
  rw [permsLex_eq]
  split
  · rename_i h
    subst h
    intro q hq
    simp at hq
    simp [hq]
  · rename_i hne
    intro q hq
    rw [List.mem_flatMap] at hq
    obtain ⟨x, -, hq⟩ := hq
    rw [List.mem_map] at hq
    obtain ⟨q', hq', rfl⟩ := hq
    have hlen : (l.erase x.1).length + 1 = l.length :=
      List.length_erase_add_one x.2
    have ih := perm_of_mem_permsLex (l.erase x.1) q' hq'
    exact (List.Perm.cons _ ih).trans (List.perm_cons_erase x.2).symm
termination_by l.length
decreasing_by
  have := List.length_erase_add_one x.2
  omega

theorem mem_permsLex_of_perm (l : List Nat) :
    ∀ q, q.Perm l → q ∈ permsLex l := by
  rw [permsLex_eq]
  split
  · rename_i h
    subst h
    intro q hq
    simp [List.perm_nil.1 hq]
  · rename_i hne
    intro q hq
    rcases q with - | ⟨x, q'⟩
    · exact absurd (List.perm_nil.1 hq.symm) hne
    · have hx : x ∈ l := hq.mem_iff.1 (List.mem_cons_self x q')
      have hq' : q'.Perm (l.erase x) := (List.cons_perm_iff_perm_erase.1 hq).2
      have hlen : (l.erase x).length + 1 = l.length :=
        List.length_erase_add_one hx
      have ih := mem_permsLex_of_perm (l.erase x) q' hq'
      rw [List.mem_flatMap]
      exact ⟨⟨x, hx⟩, List.mem_attach _ _, List.mem_map.2 ⟨q', ih, rfl⟩⟩
termination_by l.length
decreasing_by
  have := List.length_erase_add_one hx
  omega

theorem permsLex_ne_nil (l : List Nat) : permsLex l ≠ [] := by
  intro h
  have := mem_permsLex_of_perm l l (List.Perm.refl l)
  rw [h] at this
  cases this

/-- Full characterization of the BF scan: the returned ordering is one of the
enumerated permutations, attains the maximum connectivity among them, and is
the first permutation of the enumeration attaining that maximum. -/
theorem bfPath_spec (m : Mat) (n : Nat) :
    bfPath m n ∈ permsLex (List.range n) ∧
      (∀ q ∈ permsLex (List.range n),
        pathWeight m q ≤ pathWeight m (bfPath m n)) ∧
      (permsLex (List.range n)).find?
          (fun q => decide (pathWeight m q = pathWeight m (bfPath m n))) =
        some (bfPath m n) := by
  obtain ⟨q0, rest, hq⟩ :=
    List.exists_cons_of_ne_nil (permsLex_ne_nil (List.range n))
  have hfold : (permsLex (List.range n)).foldl (bfStep m) none =
      some (firstMax m (pathWeight m q0) q0 rest) := by
    rw [hq]
    simp only [List.foldl_cons, bfStep]
    exact foldl_bfStep_eq_firstMax m rest _ _
  have hbf : bfPath m n = (firstMax m (pathWeight m q0) q0 rest).2 := by
    rw [bfPath, hfold]
  have hfst : (firstMax m (pathWeight m q0) q0 rest).1 =
      pathWeight m (bfPath m n) := by
    rw [hbf]
    exact firstMax_fst m rest _ _ rfl
  refine ⟨?_, ?_, ?_⟩
  · rw [hq, hbf]
    rcases firstMax_snd_mem m rest (pathWeight m q0) q0 with h | h
    · rw [h]; exact List.mem_cons_self _ _
    · exact List.mem_cons.2 (Or.inr h)
  · intro q hmem
    rw [hq] at hmem
    rw [← hfst]
    rcases List.mem_cons.1 hmem with rfl | h
    · exact le_firstMax_fst m rest _ _
    · exact firstMax_fst_ge m rest _ _ _ h
  · rw [hq, ← hfst]
    rcases eq_or_lt_of_le (le_firstMax_fst m rest (pathWeight m q0) q0)
      with heq | hlt
    · have hstay := firstMax_eq_of_fst_eq m rest (pathWeight m q0) q0 heq.symm
      rw [hbf, hstay]
      simp [hstay]
    · rw [List.find?_cons_of_neg _ (by simp; exact ne_of_lt hlt), hbf]
      exact firstMax_find m rest _ _ hlt

/-! ## Lemmas about the Python `max` on `(cost, path)` tuples -/

theorem pairGtB_fst_le_of_true {x y : ℚ × List Nat} (h : pairGtB x y = true) :
    y.1 ≤ x.1 := by
  rw [pairGtB, Bool.or_eq_true] at h
  rcases h with h | h
  · exact le_of_lt (of_decide_eq_true h)
  · rw [Bool.and_eq_true] at h
    exact le_of_eq (of_decide_eq_true h.1).symm

theorem pairGtB_fst_le_of_false {x y : ℚ × List Nat} (h : pairGtB x y = false) :
    x.1 ≤ y.1 := by
  rw [pairGtB, Bool.or_eq_false_iff] at h
  exact le_of_not_lt (of_decide_eq_false h.1)

theorem pyFold_mem (l : List (ℚ × List Nat)) :
    ∀ acc, l.foldl pyMaxStep acc = acc ∨ l.foldl pyMaxStep acc ∈ l := by
  induction l with
  | nil => intro acc; exact Or.inl rfl
  | cons y l ih =>
      intro acc
      simp only [List.foldl_cons, pyMaxStep]
      split
      · rcases ih y with h | h
        · exact Or.inr (List.mem_cons.2 (Or.inl h))
        · exact Or.inr (List.mem_cons.2 (Or.inr h))
      · rcases ih acc with h | h
        · exact Or.inl h
        · exact Or.inr (List.mem_cons.2 (Or.inr h))

theorem pyFold_fst_ge_acc (l : List (ℚ × List Nat)) :
    ∀ acc, acc.1 ≤ (l.foldl pyMaxStep acc).1 := by
  induction l with
  | nil => intro acc; exact le_refl _
  | cons y l ih =>
      intro acc
      simp only [List.foldl_cons, pyMaxStep]
      split
      · rename_i hgt
        exact le_trans (pairGtB_fst_le_of_true hgt) (ih y)
      · exact ih acc

theorem pyFold_fst_ge_mem (l : List (ℚ × List Nat)) :
    ∀ acc x, x ∈ l → x.1 ≤ (l.foldl pyMaxStep acc).1 := by
  induction l with
  | nil => intro acc x hx; cases hx
  | cons y l ih =>
      intro acc x hx
      simp only [List.foldl_cons, pyMaxStep]
      rcases List.mem_cons.1 hx with rfl | hx
      · split
        · exact pyFold_fst_ge_acc l _
        · rename_i hngt
          exact le_trans (pairGtB_fst_le_of_false (Bool.of_not_eq_true hngt))
            (pyFold_fst_ge_acc l _)
      · split <;> exact ih _ _ hx

theorem pyMaxL_mem {l : List (ℚ × List Nat)} (h : l ≠ []) : pyMaxL l ∈ l := by
  rcases l with - | ⟨x, xs⟩
  · exact absurd rfl h
  · rw [pyMaxL]
    rcases pyFold_mem xs x with h' | h'
    · rw [h']; exact List.mem_cons_self _ _
    · exact List.mem_cons.2 (Or.inr h')

theorem pyMaxL_fst_ge {l : List (ℚ × List Nat)} :
    ∀ x ∈ l, x.1 ≤ (pyMaxL l).1 := by
  rcases l with - | ⟨y, xs⟩
  · intro x hx; cases hx
  · intro x hx
    rw [pyMaxL]
    rcases List.mem_cons.1 hx with rfl | hx
    · exact pyFold_fst_ge_acc xs x
    · exact pyFold_fst_ge_mem xs y x hx

/-! ## Lemmas about `pathWeight` -/

theorem pathWeight_append_last (m : Mat) :
    ∀ (l : List Nat) (a b : Nat), l.getLast? = some a →
      pathWeight m (l ++ [b]) = pathWeight m l + m a b := by
  intro l
  induction l with
  | nil => intro a b h; cases h
  | cons x t ih =>
      intro a b h
      rcases t with - | ⟨y, t'⟩
      · have hx : x = a := by
          simpa using h
        subst hx
        show m x b + pathWeight m [b] = pathWeight m [x] + m x b
        simp [pathWeight]
      · rw [List.getLast?_cons_cons] at h
        have hih := ih a b h
        calc pathWeight m ((x :: y :: t') ++ [b])
            = m x y + pathWeight m ((y :: t') ++ [b]) := rfl
          _ = m x y + (pathWeight m (y :: t') + m a b) := by rw [hih]
          _ = pathWeight m (x :: y :: t') + m a b := by
              show _ = m x y + pathWeight m (y :: t') + m a b
              ring

/-! ## Structure of the Held-Karp table -/

theorem hkF_congr (m : Mat) (f1 : Nat) :
    ∀ (f2 : Nat) (S : List Nat) (k : Nat), S.length ≤ f1 → S.length ≤ f2 →
      hkF m f1 S k = hkF m f2 S k := by
  induction f1 with
  | zero =>
      intro f2 S k h1 h2
      have hS : S = [] := List.length_eq_zero.1 (Nat.le_zero.1 h1)
      subst hS
      cases f2 with
      | zero => rfl
      | succ f2 => simp [hkF]
  | succ f1 ih =>
      intro f2 S k h1 h2
      cases f2 with
      | zero =>
          have hS : S = [] := List.length_eq_zero.1 (Nat.le_zero.1 h2)
          subst hS
          simp [hkF]
      | succ f2 =>
          by_cases hg : k ∈ S ∧ S.erase k ≠ []
          · simp only [hkF, if_pos hg]
            congr 1
            congr 1
            funext mm
            have hx := List.length_erase_add_one hg.1
            rw [ih f2 (S.erase k) mm (by omega) (by omega)]
          · simp only [hkF, if_neg hg]

/-- The recursion equation of the Held-Karp table. -/
theorem hk_eq (m : Mat) (S : List Nat) (k : Nat) : hk m S k =
    if k ∈ S ∧ S.erase k ≠ [] then
      pyMaxL ((S.erase k).map fun mm =>
        ((hk m (S.erase k) mm).1 + m mm k, (hk m (S.erase k) mm).2 ++ [k]))
    else (m 0 k, [0, k]) := by
  by_cases hg : k ∈ S ∧ S.erase k ≠ []
  · rw [if_pos hg, hk]
    obtain ⟨a, t, rfl⟩ :=
      List.exists_cons_of_ne_nil (List.ne_nil_of_mem hg.1)
    show hkF m (t.length + 1) (a :: t) k = _
    rw [hkF, if_pos hg]
    congr 1
    congr 1
    funext mm
    have hx := List.length_erase_add_one hg.1
    rw [hk, hkF_congr m t.length ((a :: t).erase k).length ((a :: t).erase k)
      mm (by simp only [List.length_cons] at hx; omega) (le_refl _)]
  · rw [if_neg hg, hk]
    cases hl : S.length with
    | zero => rfl
    | succ f =>
        rw [hkF, if_neg hg]

/-- The path stored at `C[(S, k)]` starts at `0`, then visits exactly the
nodes of `S`, ends at `k`, and its connectivity is the stored cost. -/
theorem hk_path_spec (m : Mat) (S : List Nat) (k : Nat) :
    S.Nodup → k ∈ S →
      ∃ q : List Nat, (hk m S k).2 = 0 :: q ∧ q.Perm S ∧
        q.getLast? = some k ∧ pathWeight m (0 :: q) = (hk m S k).1 := by
  intro hnd hk_mem
  rw [hk_eq]
  split
  · rename_i h
    have hresne : (S.erase k).map (fun mm =>
        ((hk m (S.erase k) mm).1 + m mm k, (hk m (S.erase k) mm).2 ++ [k])) ≠
        [] := by
      simp [h.2]
    obtain ⟨mm, hmm, hfmm⟩ := List.mem_map.1 (pyMaxL_mem hresne)
    obtain ⟨q', hq'2, hq'perm, hq'last, hq'w⟩ :=
      hk_path_spec m (S.erase k) mm (hnd.erase k) hmm
    refine ⟨q' ++ [k], ?_, ?_, ?_, ?_⟩
    · rw [← hfmm, hq'2]
      simp
    · exact ((List.perm_append_singleton k q').trans
        ((List.Perm.cons k hq'perm).trans (List.perm_cons_erase h.1).symm))
    · exact List.getLast?_concat _
    · have hcons : (0 : Nat) :: (q' ++ [k]) = (0 :: q') ++ [k] := by simp
      rw [hcons, pathWeight_append_last m (0 :: q') mm k ?hlast, hq'w, ← hfmm]
      case hlast =>
        rcases q' with - | ⟨y, t⟩
        · cases hq'last
        · rw [List.getLast?_cons_cons]
          exact hq'last
  · rename_i h
    push_neg at h
    have herase : S.erase k = [] := h hk_mem
    have hS : S = [k] := by
      have hlen := List.length_erase_add_one hk_mem
      rw [herase] at hlen
      simp at hlen
      rcases S with - | ⟨a, t⟩
      · cases hk_mem
      · simp at hlen
        subst hlen
        rcases List.mem_singleton.1 hk_mem with rfl
        rfl
    refine ⟨[k], rfl, by rw [hS], rfl, ?_⟩
    show m 0 k + pathWeight m [k] = m 0 k
    simp [pathWeight]
termination_by S.length
decreasing_by
  have hks : k ∈ S := by assumption
  have := List.length_erase_add_one hks
  omega

/-- Every path `0 → (permutation of `S \ {k}`) → k` has connectivity at most
the cost stored at `C[(S, k)]`: the transition really takes the maximum over
predecessors. -/
theorem hk_fst_ge_weight (m : Mat) (S : List Nat) (k : Nat) (q : List Nat) :
    S.Nodup → k ∈ S → q.Perm (S.erase k) →
      pathWeight m ((0 :: q) ++ [k]) ≤ (hk m S k).1 := by
  intro hnd hk_mem hqperm
  rw [hk_eq]
  split
  · rename_i h
    have hqne : q ≠ [] := by
      intro hq
      rw [hq] at hqperm
      exact h.2 (List.perm_nil.1 hqperm.symm)
    obtain ⟨q₀, mm, hqeq⟩ := (List.eq_nil_or_concat q).resolve_left hqne
    rw [List.concat_eq_append] at hqeq
    subst hqeq
    have hmm : mm ∈ S.erase k :=
      hqperm.mem_iff.1 (by simp)
    have hq₀ : q₀.Perm ((S.erase k).erase mm) := by
      have h1 : (mm :: q₀).Perm (S.erase k) :=
        (List.perm_append_singleton mm q₀).symm.trans hqperm
      have h2 := h1.erase mm
      rwa [List.erase_cons_head] at h2
    have hih := hk_fst_ge_weight m (S.erase k) mm q₀ (hnd.erase k) hmm hq₀
    have hsplit : (0 :: (q₀ ++ [mm])) ++ [k] = ((0 :: q₀) ++ [mm]) ++ [k] := by
      simp
    rw [hsplit, pathWeight_append_last m ((0 :: q₀) ++ [mm]) mm k
      (List.getLast?_concat _)]
    have hmem : ((hk m (S.erase k) mm).1 + m mm k,
        (hk m (S.erase k) mm).2 ++ [k]) ∈
        (S.erase k).map (fun mm =>
          ((hk m (S.erase k) mm).1 + m mm k, (hk m (S.erase k) mm).2 ++ [k])) :=
      List.mem_map_of_mem _ hmm
    have hmax := pyMaxL_fst_ge _ hmem
    exact le_trans (add_le_add_right hih (m mm k)) hmax
  · rename_i h
    push_neg at h
    have herase : S.erase k = [] := h hk_mem
    rw [herase] at hqperm
    rw [List.perm_nil.1 hqperm]
    show pathWeight m [0, k] ≤ m 0 k
    simp [pathWeight]
termination_by S.length
decreasing_by
  have hks : k ∈ S := by assumption
  have := List.length_erase_add_one hks
  omega

/-- The closed path produced by the TSP branch before the cut: it has the
shape `0 :: q ++ [0]` with `q` a permutation of `{1,…,n-1}` ending at the
best terminal, and its total weight (the Hamiltonian-cycle weight) is
maximal among all Hamiltonian cycles through `0`. -/
theorem tspClosed_spec (m : Mat) (n : Nat) (hn : 2 ≤ n) :
    ∃ q : List Nat, tspClosed m n = (0 :: q) ++ [0] ∧
      q.Perm (List.range' 1 (n - 1)) ∧
      ∀ q' : List Nat, q'.Perm (List.range' 1 (n - 1)) →
        pathWeight m ((0 :: q') ++ [0]) ≤ pathWeight m (tspClosed m n) := by
  have hfne : List.range' 1 (n - 1) ≠ [] := by
    have : (List.range' 1 (n - 1)).length = n - 1 := List.length_range' ..
    intro hc
    rw [hc] at this
    simp at this
    omega
  have hresne : (List.range' 1 (n - 1)).map (fun k =>
      ((hk m (List.range' 1 (n - 1)) k).1 + m k 0,
        (hk m (List.range' 1 (n - 1)) k).2)) ≠ [] := by
    simp [hfne]
  obtain ⟨k₀, hk₀, hg⟩ := List.mem_map.1 (pyMaxL_mem hresne)
  obtain ⟨q, hq2, hqperm, hqlast, hqw⟩ :=
    hk_path_spec m (List.range' 1 (n - 1)) k₀ (List.nodup_range' _ _) hk₀
  have hclosed : tspClosed m n = (0 :: q) ++ [0] := by
    rw [tspClosed, ← hg, hq2]
  have hqne : q ≠ [] := by
    intro hq
    rw [hq] at hqlast
    cases hqlast
  have hlast0q : (0 :: q).getLast? = some k₀ := by
    rcases q with - | ⟨y, t⟩
    · exact absurd rfl hqne
    · rw [List.getLast?_cons_cons]
      exact hqlast
  have hwclosed : pathWeight m (tspClosed m n) =
      (hk m (List.range' 1 (n - 1)) k₀).1 + m k₀ 0 := by
    rw [hclosed, pathWeight_append_last m (0 :: q) k₀ 0 hlast0q, hqw]
  refine ⟨q, hclosed, hqperm, ?_⟩
  intro q' hq'perm
  have hq'ne : q' ≠ [] := by
    intro hq'
    rw [hq'] at hq'perm
    exact hfne (List.perm_nil.1 hq'perm.symm)
  obtain ⟨q₀, k', hq'eq⟩ := (List.eq_nil_or_concat q').resolve_left hq'ne
  rw [List.concat_eq_append] at hq'eq
  subst hq'eq
  have hk' : k' ∈ List.range' 1 (n - 1) := hq'perm.mem_iff.1 (by simp)
  have hq₀ : q₀.Perm ((List.range' 1 (n - 1)).erase k') := by
    have h1 : (k' :: q₀).Perm (List.range' 1 (n - 1)) :=
      (List.perm_append_singleton k' q₀).symm.trans hq'perm
    have h2 := h1.erase k'
    rwa [List.erase_cons_head] at h2
  have hle := hk_fst_ge_weight m (List.range' 1 (n - 1)) k' q₀
    (List.nodup_range' _ _) hk' hq₀
  have hsplit : (0 :: (q₀ ++ [k'])) ++ [0] = ((0 :: q₀) ++ [k']) ++ [0] := by
    simp
  rw [hsplit, pathWeight_append_last m ((0 :: q₀) ++ [k']) k' 0
    (List.getLast?_concat _), hwclosed]
  have hmem : ((hk m (List.range' 1 (n - 1)) k').1 + m k' 0,
      (hk m (List.range' 1 (n - 1)) k').2) ∈
      (List.range' 1 (n - 1)).map (fun k =>
        ((hk m (List.range' 1 (n - 1)) k).1 + m k 0,
          (hk m (List.range' 1 (n - 1)) k).2)) :=
    List.mem_map_of_mem _ hk'
  have hmax := pyMaxL_fst_ge _ hmem
  have hfst : (pyMaxL ((List.range' 1 (n - 1)).map (fun k =>
      ((hk m (List.range' 1 (n - 1)) k).1 + m k 0,
        (hk m (List.range' 1 (n - 1)) k).2)))).1 =
      (hk m (List.range' 1 (n - 1)) k₀).1 + m k₀ 0 := by
    rw [← hg]
  calc pathWeight m ((0 :: q₀) ++ [k']) + m k' 0
      ≤ (hk m (List.range' 1 (n - 1)) k').1 + m k' 0 :=
        add_le_add_right hle _
    _ ≤ (hk m (List.range' 1 (n - 1)) k₀).1 + m k₀ 0 := by
        rw [← hfst]
        exact hmax

/-! ## Lemmas about the cycle cut -/

theorem foldl_min_mem (xs : List ℚ) :
    ∀ acc : ℚ, xs.foldl min acc = acc ∨ xs.foldl min acc ∈ xs := by
  induction xs with
  | nil => intro acc; exact Or.inl rfl
  | cons y xs ih =>
      intro acc
      rcases ih (min acc y) with h | h
      · rcases min_choice acc y with hm | hm
        · exact Or.inl (by rw [List.foldl_cons, h, hm])
        · refine Or.inr (List.mem_cons.2 (Or.inl ?_))
          rw [List.foldl_cons, h, hm]
      · exact Or.inr (List.mem_cons.2 (Or.inr h))

theorem listMinQ_mem {l : List ℚ} (h : l ≠ []) : listMinQ l ∈ l := by
  rcases l with - | ⟨x, xs⟩
  · exact absurd rfl h
  · rw [listMinQ]
    rcases foldl_min_mem xs x with h' | h'
    · rw [h']; exact List.mem_cons_self _ _
    · exact List.mem_cons.2 (Or.inr h')

theorem length_cycleDists (m : Mat) (p : List Nat) :
    (cycleDists m p).length = p.length - 1 := by
  rw [cycleDists]
  simp

theorem cutIndex_lt (m : Mat) (p : List Nat) (hp : 2 ≤ p.length) :
    cutIndex m p < p.length - 1 := by
  have hne : cycleDists m p ≠ [] := by
    intro hc
    have := length_cycleDists m p
    rw [hc] at this
    simp at this
    omega
  have := List.indexOf_lt_length.2 (listMinQ_mem hne)
  rw [length_cycleDists] at this
  exact this

theorem mem_consecPairs {a b : Nat} {l : List Nat} :
    (a, b) ∈ consecPairs l ↔ ∃ i, l[i]? = some a ∧ l[i + 1]? = some b := by
  rw [consecPairs]
  constructor
  · intro h
    obtain ⟨i, hi⟩ := List.mem_iff_getElem?.1 h
    rw [List.getElem?_zip_eq_some] at hi
    exact ⟨i, hi.1, by rw [← List.getElem?_tail]; exact hi.2⟩
  · rintro ⟨i, ha, hb⟩
    exact List.mem_iff_getElem?.2 ⟨i, List.getElem?_zip_eq_some.2
      ⟨ha, by rw [List.getElem?_tail]; exact hb⟩⟩

theorem nodup_getElem?_inj {l : List Nat} (hnd : l.Nodup) {i j a : Nat}
    (hi : l[i]? = some a) (hj : l[j]? = some a) : i = j := by
  obtain ⟨hi', hi''⟩ := List.getElem?_eq_some_iff.1 hi
  obtain ⟨hj', hj''⟩ := List.getElem?_eq_some_iff.1 hj
  exact (hnd.getElem_inj_iff).1 (hi''.trans hj''.symm)

/-- In a duplicate-free list, no consecutive pair starts at the last
element. -/
theorem not_mem_consecPairs_of_getLast {l : List Nat} (hnd : l.Nodup)
    {a b : Nat} (hlast : l.getLast? = some a) : (a, b) ∉ consecPairs l := by
  intro hmem
  obtain ⟨i, ha, hb⟩ := mem_consecPairs.1 hmem
  have hlast' : l[l.length - 1]? = some a := by
    rw [← List.getLast?_eq_getElem?]
    exact hlast
  have hieq : i = l.length - 1 := nodup_getElem?_inj hnd ha hlast'
  have hblt : i + 1 < l.length := (List.getElem?_eq_some_iff.1 hb).1
  omega

theorem getD_eq_some {l : List Nat} {i : Nat} (h : i < l.length) :
    l[i]? = some (l.getD i 0) := by
  rw [List.getD_eq_getElem?_getD, List.getElem?_eq_getElem h]
  rfl

/-! ## Lemmas about the score mapper -/

theorem foldl_set_getD_notmem {γ : Type} (idx : γ → Nat) (val : γ → ℚ)
    (ps : List γ) :
    ∀ (s : List ℚ) (a : Nat), a ∉ ps.map idx →
      (ps.foldl (fun acc x => acc.set (idx x) (val x)) s).getD a 0 =
        s.getD a 0 := by
  induction ps with
  | nil => intro s a _; rfl
  | cons x t ih =>
      intro s a ha
      rw [List.map_cons, List.mem_cons] at ha
      push_neg at ha
      rw [List.foldl_cons, ih (s.set (idx x) (val x)) a ha.2,
        List.getD_eq_getElem?_getD,
        List.getElem?_set_ne (fun h => ha.1 h.symm),
        List.getD_eq_getElem?_getD]

theorem foldl_set_getD {γ : Type} (idx : γ → Nat) (val : γ → ℚ)
    (ps : List γ) :
    ∀ (s : List ℚ) (x : γ), x ∈ ps → (ps.map idx).Nodup →
      idx x < s.length →
      (ps.foldl (fun acc y => acc.set (idx y) (val y)) s).getD (idx x) 0 =
        val x := by
  induction ps with
  | nil => intro s x hm _ _; cases hm
  | cons y t ih =>
      intro s x hm hnd hlen
      rw [List.map_cons, List.nodup_cons] at hnd
      rcases List.mem_cons.1 hm with heq | hmem
      · subst heq
        rw [List.foldl_cons,
          foldl_set_getD_notmem idx val t (s.set (idx x) (val x)) (idx x)
            hnd.1,
          List.getD_eq_getElem?_getD, List.getElem?_set_self hlen]
        rfl
      · rw [List.foldl_cons]
        exact ih (s.set (idx y) (val y)) x hmem hnd.2 (by
          rw [List.length_set]
          exact hlen)

theorem linspace01_getD {n i : Nat} (h : i < n) :
    (linspace01 n).getD i 0 =
      if n ≤ 1 then 0 else Rat.divInt (Int.ofNat i) (Int.ofNat (n - 1)) := by
  rw [linspace01, List.getD_eq_getElem?_getD, List.getElem?_map,
    List.getElem?_range h]
  rfl

theorem matOfList_nonneg {rows : List (List ℚ)}
    (h : ∀ r ∈ rows, ∀ x ∈ r, 0 ≤ x) : ∀ i j, 0 ≤ matOfList rows i j := by
  intro i j
  show 0 ≤ (rows.getD i []).getD j 0
  have hrow : rows.getD i [] = [] ∨ rows.getD i [] ∈ rows := by
    rw [List.getD_eq_getElem?_getD]
    cases hi : rows[i]? with
    | none => exact Or.inl rfl
    | some r =>
        right
        rw [List.mem_iff_getElem?]
        exact ⟨i, hi⟩
  have hx : (rows.getD i []).getD j 0 = 0 ∨
      (rows.getD i []).getD j 0 ∈ rows.getD i [] := by
    rw [List.getD_eq_getElem?_getD]
    cases hj : (rows.getD i [])[j]? with
    | none => exact Or.inl rfl
    | some x =>
        right
        rw [List.mem_iff_getElem?]
        exact ⟨j, hj⟩
  rcases hx with hx | hx
  · rw [hx]
  · rcases hrow with hrow | hrow
    · rw [hrow] at hx
      cases hx
    · exact h _ hrow _ hx

/-! ## Claims -/

/-- C4:  For every ordering that is a permutation of `{0,…,n-1}` with
`n ≥ 2`, `trajectory_path_to_NC_score` returns exactly the `n` values
`linspace(0,1,n)` reassigned by position: `score[ordering[i]] = values[i]`
for each `i`; in particular `score[ordering[0]] = 0` and
`score[ordering[n-1]] = 1`; and the mapping from ordering positions to score
values is a bijection (the `linspace` values are pairwise distinct). -/
theorem C4_score_mapper (path : List Nat) (n : Nat)
    (hperm : path.Perm (List.range n)) (hn : 2 ≤ n) :
    (∀ i, i < n →
      (trajectory_path_to_NC_score path).getD (path.getD i 0) 0 =
        (linspace01 n).getD i 0) ∧
    (trajectory_path_to_NC_score path).getD (path.getD 0 0) 0 = 0 ∧
    (trajectory_path_to_NC_score path).getD (path.getD (n - 1) 0) 0 = 1 ∧
    (∀ i j, i < n → j < n →
      (linspace01 n).getD i 0 = (linspace01 n).getD j 0 → i = j) := by
  have hlen : path.length = n := by
    have h := hperm.length_eq
    rwa [List.length_range] at h
  have hnod : path.Nodup := hperm.nodup_iff.2 (List.nodup_range n)
  have hmain : ∀ i, i < n →
      (trajectory_path_to_NC_score path).getD (path.getD i 0) 0 =
        (linspace01 n).getD i 0 := by
    intro i hi
    have hilen : i < path.length := by omega
    have hgd : path.getD i 0 = path.get ⟨i, hilen⟩ := by
      rw [List.getD_eq_getElem?_getD, List.getElem?_eq_getElem hilen]
      rfl
    have hmem : (i, path.get ⟨i, hilen⟩) ∈ path.enum := by
      rw [List.mem_iff_getElem?]
      refine ⟨i, ?_⟩
      rw [List.getElem?_enum, List.getElem?_eq_getElem hilen]
      rfl
    have hnodsnd : (path.enum.map Prod.snd).Nodup := by
      rw [List.enum_map_snd]
      exact hnod
    have hlt : Prod.snd (i, path.get ⟨i, hilen⟩) <
        (List.replicate n (0 : ℚ)).length := by
      rw [List.length_replicate]
      exact List.mem_range.1 (hperm.mem_iff.1 (path.get_mem _ _))
    have happ := foldl_set_getD Prod.snd
      (fun pr : ℕ × ℕ => (linspace01 n).getD pr.1 0) path.enum
      (List.replicate n (0 : ℚ)) (i, path.get ⟨i, hilen⟩) hmem hnodsnd hlt
    rw [trajectory_path_to_NC_score, hlen, hgd]
    exact happ
  refine ⟨hmain, ?_, ?_, ?_⟩
  · rw [hmain 0 (by omega), linspace01_getD (show 0 < n by omega),
      if_neg (by omega)]
    exact Rat.zero_divInt _
  · rw [hmain (n - 1) (by omega), linspace01_getD (show n - 1 < n by omega),
      if_neg (by omega)]
    refine Rat.divInt_self' ?_
    have h1 : n - 1 ≠ 0 := by omega
    show ((n - 1 : ℕ) : ℤ) ≠ 0
    exact_mod_cast h1
  · intro i j hi hj hij
    rw [linspace01_getD hi, linspace01_getD hj, if_neg (by omega),
      if_neg (by omega), Rat.divInt_eq_div, Rat.divInt_eq_div] at hij
    simp only [Int.ofNat_eq_natCast] at hij
    have hc : (((n - 1 : ℕ) : ℤ) : ℚ) ≠ 0 := by
      have h1 : n - 1 ≠ 0 := by omega
      have h2 : ((n - 1 : ℕ) : ℤ) ≠ 0 := by exact_mod_cast h1
      exact_mod_cast h2
    rw [div_eq_div_iff hc hc] at hij
    have h2 := mul_right_cancel₀ hc hij
    have h3 : ((i : ℕ) : ℤ) = ((j : ℕ) : ℤ) := by exact_mod_cast h2
    exact_mod_cast h3

/-- C2 (amended):  For every square non-negative matrix with `n ≥ 2`,
whenever the TSP cycle-cut completes without raising (i.e. `tspPath` returns
a path), the resulting open path contains every node exactly once; and when
`n ≥ 3` the removed weakest edge `(path[cut_index], path[cut_index+1])` does
not appear among the open path's consecutive pairs.  (The `n ≥ 3` proviso
and the "completes without raising" proviso are what the counterexample and
the `UnboundLocalError` branch force on the original claim.) -/
theorem C2_cycle_cut (m : Mat) (n : Nat) (p : List Nat)
    (hm : ∀ i j, 0 ≤ m i j) (hn : 2 ≤ n) (hp : tspPath m n = some p) :
    p.Perm (List.range n) ∧
      (3 ≤ n → weakestEdge m (tspClosed m n) ∉ consecPairs p) := by
  obtain ⟨q, hclosed, hqperm, -⟩ := tspClosed_spec m n hn
  have hqlen : q.length = n - 1 := by
    have h := hqperm.length_eq
    rwa [List.length_range'] at h
  have hqnodup : q.Nodup := hqperm.nodup_iff.2 (List.nodup_range' _ _)
  have h0q : (0 : ℕ) ∉ q := by
    intro h0
    have h0' := hqperm.mem_iff.1 h0
    rw [List.mem_range'_1] at h0'
    omega
  have hnod0q : ((0 : ℕ) :: q).Nodup := by
    rw [List.nodup_cons]
    exact ⟨h0q, hqnodup⟩
  have hrange : List.range n = 0 :: List.range' 1 (n - 1) := by
    rw [List.range_eq_range']
    conv_lhs => rw [show n = (n - 1) + 1 by omega]
    rw [List.range'_succ]
  have hperm0q : ((0 : ℕ) :: q).Perm (List.range n) := by
    rw [hrange]
    exact hqperm.cons 0
  have hqne : q ≠ [] := by
    intro h0
    rw [h0] at hqlen
    simp at hqlen
    omega
  have hlenp0 : (tspClosed m n).length = n + 1 := by
    rw [hclosed]
    simp only [List.length_append, List.length_cons, List.length_nil, hqlen]
    omega
  have hdropLast : (tspClosed m n).dropLast = 0 :: q := by
    rw [hclosed]
    exact List.dropLast_concat
  have hlen0q : ((0 : ℕ) :: q).length = n := by
    simp only [List.length_cons, hqlen]
    omega
  rw [tspPath, cutCycle] at hp
  set ci := cutIndex m (tspClosed m n) with hcidef
  have hcilt : ci < n := by
    have h := cutIndex_lt m (tspClosed m n) (by rw [hlenp0]; omega)
    rw [hlenp0] at h
    omega
  have hgetq' : ∀ i, i < n →
      (tspClosed m n).getD i 0 = ((0 : ℕ) :: q).getD i 0 := by
    intro i hi
    have hside : i < ((0 : ℕ) :: q).length := by
      rw [hlen0q]
      omega
    rw [hclosed, List.getD_eq_getElem?_getD, List.getD_eq_getElem?_getD,
      List.getElem?_append_left hside]
  have hgetn : (tspClosed m n).getD n 0 = 0 := by
    have hside : ((0 : ℕ) :: q).length ≤ n := by
      rw [hlen0q]
    rw [hclosed, List.getD_eq_getElem?_getD,
      List.getElem?_append_right hside]
    rw [hlen0q, show n - n = 0 by omega]
    rfl
  split at hp
  · -- ascending endpoints: start_index = cut_index
    rw [cutSplice] at hp
    split at hp
    · -- cut at the trailing position: impossible for the ascending case
      rename_i h1
      exfalso
      rw [hlenp0] at h1
      omega
    · split at hp
      · -- cut at the very start
        rename_i h1 h2
        have hdrop1 : (tspClosed m n).drop 1 = q ++ [0] := by
          rw [hclosed]
          rfl
        have hrev : ((tspClosed m n).drop 1).reverse = 0 :: q.reverse := by
          rw [hdrop1, List.reverse_append]
          rfl
        obtain rfl : (0 : ℕ) :: q.reverse = p := by
          rw [← hrev]
          exact Option.some.inj hp
        have hpermrev : ((0 : ℕ) :: q.reverse).Perm ((0 : ℕ) :: q) :=
          (q.reverse_perm).cons 0
        refine ⟨hpermrev.trans hperm0q, ?_⟩
        intro hn3 hmem
        have he1 : (tspClosed m n).getD ci 0 = 0 := by
          rw [h2, hgetq' 0 (by omega)]
          rfl
        have he2 : (tspClosed m n).getD (ci + 1) 0 = q.getD 0 0 := by
          rw [h2, hgetq' 1 (by omega)]
          rfl
        rw [weakestEdge, ← hcidef, he1, he2] at hmem
        obtain ⟨i, hia, hib⟩ := mem_consecPairs.1 hmem
        have hnodrev : ((0 : ℕ) :: q.reverse).Nodup :=
          hpermrev.nodup_iff.2 hnod0q
        have hi0 : i = 0 :=
          nodup_getElem?_inj hnodrev hia List.getElem?_cons_zero
        subst hi0
        have hib' : q.reverse[0]? = some (q.getD 0 0) := by
          rwa [List.getElem?_cons_succ] at hib
        have hlastq : q[q.length - 1]? = some (q.getD 0 0) := by
          rw [← List.getLast?_eq_getElem?, ← List.head?_reverse,
            List.head?_eq_getElem?]
          exact hib'
        have hheadq : q[0]? = some (q.getD 0 0) :=
          getD_eq_some (by omega)
        have h01 := nodup_getElem?_inj hqnodup hheadq hlastq
        omega
      · split at hp
        · exact absurd hp (by simp)
        · rename_i h1 h2 h3
          exact absurd (Nat.lt_succ_self ci) h3
  · -- descending endpoints: start_index = cut_index + 1
    rw [cutSplice] at hp
    split at hp
    · -- cut at the trailing edge: pop the final 0
      rename_i h1
      have h1n : ci + 1 = n := by
        rw [hlenp0] at h1
        omega
      obtain rfl : (0 : ℕ) :: q = p := by
        rw [← hdropLast]
        exact Option.some.inj hp
      refine ⟨hperm0q, ?_⟩
      intro _ hmem
      have he2 : (tspClosed m n).getD (ci + 1) 0 = 0 := by
        rw [h1n, hgetn]
      rw [weakestEdge, ← hcidef, he2] at hmem
      obtain ⟨i, -, hib⟩ := mem_consecPairs.1 hmem
      rw [List.getElem?_cons_succ] at hib
      exact h0q (List.mem_iff_getElem?.2 ⟨i, hib⟩)
    · split at hp
      · rename_i h1 h2
        exact absurd h2 (by omega)
      · split at hp
        · rename_i h1 h2 h3
          exact absurd h3 (by omega)
        · rename_i h1 h2 h3
          have hciup : ci + 1 < n := by
            rw [hlenp0] at h1
            omega
          rw [hdropLast] at hp
          obtain rfl : ((0 : ℕ) :: q).drop (ci + 1) ++
              ((0 : ℕ) :: q).take (ci + 1) = p := Option.some.inj hp
          have e := List.take_append_drop (ci + 1) ((0 : ℕ) :: q)
          have h4 := @List.perm_append_comm ℕ
            (((0 : ℕ) :: q).drop (ci + 1)) (((0 : ℕ) :: q).take (ci + 1))
          rw [e] at h4
          refine ⟨h4.trans hperm0q, ?_⟩
          intro hn3 hmem
          have he1 : (tspClosed m n).getD ci 0 = ((0 : ℕ) :: q).getD ci 0 :=
            hgetq' ci (by omega)
          have he2 : (tspClosed m n).getD (ci + 1) 0 =
              ((0 : ℕ) :: q).getD (ci + 1) 0 :=
            hgetq' (ci + 1) (by omega)
          rw [weakestEdge, ← hcidef, he1, he2] at hmem
          have hgetlastp : (((0 : ℕ) :: q).drop (ci + 1) ++
              ((0 : ℕ) :: q).take (ci + 1)).getLast? =
              some (((0 : ℕ) :: q).getD ci 0) := by
            rw [List.getLast?_append, List.getLast?_take]
            rw [if_neg (by omega : ¬(ci + 1 = 0)),
              show ci + 1 - 1 = ci by omega,
              getD_eq_some (show ci < ((0 : ℕ) :: q).length by rw [hlen0q]; omega)]
            rfl
          exact not_mem_consecPairs_of_getLast (h4.nodup_iff.2 hnod0q)
            hgetlastp hmem

unseal Rat.add Rat.mul Rat.inv in
/-- C2 (witness):  The amended statement instantiated on the 4×4 matrix
`mInterior`, where the TSP branch completes through the arc-swapping splice
and returns `[1, 0, 3, 2]`. -/
theorem C2_witness :
    ([1, 0, 3, 2] : List Nat).Perm (List.range 4) ∧
      (3 ≤ 4 →
        weakestEdge mInterior (tspClosed mInterior 4) ∉
          consecPairs [1, 0, 3, 2]) :=
  C2_cycle_cut mInterior 4 [1, 0, 3, 2]
    (matOfList_nonneg (by decide)) (by decide) (by decide)

unseal Rat.add Rat.mul Rat.inv in
/-- C2 (counterexample):  At `n = 2` with `mTwo = [[0,1],[2,0]]` the cut
removes the weakest edge `(0, 1)` of the closed cycle `[0, 1, 0]`, yet the
returned open path `[0, 1]` contains exactly that ordered pair: the claim
"the removed weakest edge does not appear among the open path's consecutive
pairs" fails as stated. -/
theorem C2_counterexample :
    tspPath mTwo 2 = some [0, 1] ∧
      weakestEdge mTwo (tspClosed mTwo 2) = (0, 1) ∧
      (0, 1) ∈ consecPairs [0, 1] := by
  refine ⟨by decide, by decide, by decide⟩

unseal Rat.add Rat.mul Rat.inv in
/-- C1 (code bug):  TSP strategy on the non-negative square matrix `mCrash`
(`[[0,10,0,0],[0,0,1,0],[0,0,0,10],[10,0,0,0]]`): the maximum-weight
Hamiltonian cycle is `[0, 1, 2, 3, 0]` and its weakest edge `(1, 2)` is
interior with ascending endpoints, so the code executes
`niche_trajectory_path.pop(len(path) - 1)` where `path` is a variable bound
only in the BF branch — an `UnboundLocalError` (modelled `none`) instead of
the permutation the claim promises. -/
theorem C1_tsp_unbound_local :
    get_niche_trajectory_path "TSP" mCrash 4 = none := by decide

unseal Rat.add Rat.mul Rat.inv in
/-- C3:  The BF strategy maximizes the connectivity over all `n!`
permutations, ties broken by the first permutation encountered in the
`itertools.permutations` enumeration (expressed via `List.find?` over the
enumeration); on the spec's example matrix it returns `[0, 1, 2]` with cost
`6`, the maximum over all 6 permutations. -/
theorem C3_bf_maximum :
    (∀ (n : Nat) (m : Mat) (q : List Nat), q.Perm (List.range n) →
      pathWeight m q ≤ pathWeight m (bfPath m n)) ∧
    (∀ (n : Nat) (m : Mat),
      (permsLex (List.range n)).find?
        (fun q => decide (pathWeight m q = pathWeight m (bfPath m n))) =
        some (bfPath m n)) ∧
    bfPath mExample 3 = [0, 1, 2] ∧
    pathWeight mExample (bfPath mExample 3) = 6 ∧
    (∀ q : List Nat, q.Perm (List.range 3) → pathWeight mExample q ≤ 6) := by
  have hmax : ∀ (n : Nat) (m : Mat) (q : List Nat), q.Perm (List.range n) →
      pathWeight m q ≤ pathWeight m (bfPath m n) := by
    intro n m q hq
    exact (bfPath_spec m n).2.1 q (mem_permsLex_of_perm (List.range n) q hq)
  have hbfe : bfPath mExample 3 = [0, 1, 2] := by decide
  refine ⟨hmax, fun n m => (bfPath_spec m n).2.2, hbfe, ?_, ?_⟩
  · rw [hbfe]
    decide
  · intro q hq
    have h := hmax 3 mExample q hq
    rw [hbfe] at h
    exact le_trans h (by decide)

unseal Rat.add Rat.mul Rat.inv in
/-- C3 (witness). -/
theorem C3_witness :
    pathWeight mExample [1, 0, 2] ≤ pathWeight mExample (bfPath mExample 3) :=
  C3_bf_maximum.1 3 mExample [1, 0, 2] (by decide)

unseal Rat.add Rat.mul Rat.inv in
/-- C4 (witness):  The score mapper on the ordering `[2, 0, 1]`
(a permutation of `{0, 1, 2}`). -/
theorem C4_witness :
    (trajectory_path_to_NC_score [2, 0, 1]).getD
        (([2, 0, 1] : List Nat).getD 0 0) 0 = 0 ∧
    (trajectory_path_to_NC_score [2, 0, 1]).getD
        (([2, 0, 1] : List Nat).getD (3 - 1) 0) 0 = 1 :=
  ⟨(C4_score_mapper [2, 0, 1] 3 (by decide) (by decide)).2.1,
    (C4_score_mapper [2, 0, 1] 3 (by decide) (by decide)).2.2.1⟩

/-- C5:  The Held-Karp table of the TSP branch: the base case
`C[{0,k}, k] = (matrix[0][k], [0, k])`; each transition value is the maximum
over predecessors `mm` of `C[S \ {k}, mm].cost + matrix[mm][k]` (it is an
upper bound and is attained); and the final closed path `tspClosed` starts
at `0`, visits every other node exactly once, ends back at node `0`, and
has maximal weight among all Hamiltonian cycles through `0`. -/
theorem C5_held_karp :
    (∀ (m : Mat) (k : Nat), hk m [k] k = (m 0 k, [0, k])) ∧
    (∀ (m : Mat) (S : List Nat) (k : Nat), k ∈ S → S.erase k ≠ [] →
      (∀ mm ∈ S.erase k,
        (hk m (S.erase k) mm).1 + m mm k ≤ (hk m S k).1) ∧
      (∃ mm ∈ S.erase k,
        (hk m S k).1 = (hk m (S.erase k) mm).1 + m mm k)) ∧
    (∀ (m : Mat) (n : Nat), 2 ≤ n →
      ∃ q : List Nat, tspClosed m n = (0 :: q) ++ [0] ∧
        q.Perm (List.range' 1 (n - 1)) ∧
        (tspClosed m n).getLast? = some 0 ∧
        (∀ q' : List Nat, q'.Perm (List.range' 1 (n - 1)) →
          pathWeight m ((0 :: q') ++ [0]) ≤ pathWeight m (tspClosed m n))) := by
  refine ⟨?_, ?_, ?_⟩
  · intro m k
    rw [hk_eq, if_neg (by simp)]
  · intro m S k hk1 hk2
    have he := hk_eq m S k
    rw [if_pos ⟨hk1, hk2⟩] at he
    constructor
    · intro mm hmm
      rw [he]
      exact pyMaxL_fst_ge _ (List.mem_map_of_mem _ hmm)
    · rw [he]
      have hne : (S.erase k).map (fun mm =>
          ((hk m (S.erase k) mm).1 + m mm k,
            (hk m (S.erase k) mm).2 ++ [k])) ≠ [] := by
        simp [hk2]
      obtain ⟨mm, hmm, hfmm⟩ := List.mem_map.1 (pyMaxL_mem hne)
      refine ⟨mm, hmm, ?_⟩
      rw [← hfmm]
  · intro m n hn
    obtain ⟨q, h1, h2, h3⟩ := tspClosed_spec m n hn
    refine ⟨q, h1, h2, ?_, h3⟩
    rw [h1]
    exact List.getLast?_concat _

/-- C5 (witness). -/
theorem C5_witness :
    hk mExample [2] 2 = (mExample 0 2, [0, 2]) ∧
    ((∀ mm ∈ [1, 2].erase 2,
        (hk mExample ([1, 2].erase 2) mm).1 + mExample mm 2 ≤
          (hk mExample [1, 2] 2).1) ∧
      (∃ mm ∈ [1, 2].erase 2,
        (hk mExample [1, 2] 2).1 =
          (hk mExample ([1, 2].erase 2) mm).1 + mExample mm 2)) ∧
    (∃ q : List Nat, tspClosed mExample 3 = (0 :: q) ++ [0] ∧
      q.Perm (List.range' 1 (3 - 1)) ∧
      (tspClosed mExample 3).getLast? = some 0 ∧
      (∀ q' : List Nat, q'.Perm (List.range' 1 (3 - 1)) →
        pathWeight mExample ((0 :: q') ++ [0]) ≤
          pathWeight mExample (tspClosed mExample 3))) :=
  ⟨C5_held_karp.1 mExample 2,
    C5_held_karp.2.1 mExample [1, 2] 2 (by decide) (by decide),
    C5_held_karp.2.2 mExample 3 (by decide)⟩

/-- C6:  The per-sample projection of `niche_to_cell_NTScore`: with a
non-negative niche weight matrix whose column sum at cell `i` is positive,
the cell-level score is exactly the weighted sum with weights
`W[j][i] / colsum(i)`, those weights are non-negative and sum to `1` (a
convex combination of the sample's niche-level scores), and hence the
cell-level score lies within any interval `[lo, hi]` containing all the
niche-level scores — in particular within
`[min(aggregate_score), max(aggregate_score)]`. -/
theorem C6_convex_projection (W : Mat) (nN : Nat) (scores : Nat → ℚ)
    (i : Nat) (hW : ∀ j, j < nN → 0 ≤ W j i) (hcol : 0 < colSum W nN i) :
    cellScore W nN scores i =
      (∑ j ∈ Finset.range nN, W j i / colSum W nN i * scores j) ∧
    (∀ j, j < nN → 0 ≤ W j i / colSum W nN i) ∧
    (∑ j ∈ Finset.range nN, W j i / colSum W nN i) = 1 ∧
    (∀ lo hi : ℚ, (∀ j, j < nN → lo ≤ scores j ∧ scores j ≤ hi) →
      lo ≤ cellScore W nN scores i ∧ cellScore W nN scores i ≤ hi) := by
  have hwnn : ∀ j, j < nN → 0 ≤ W j i / colSum W nN i := fun j hj =>
    div_nonneg (hW j hj) (le_of_lt hcol)
  have hsum : (∑ j ∈ Finset.range nN, W j i / colSum W nN i) = 1 := by
    rw [← Finset.sum_div]
    exact div_self (ne_of_gt hcol)
  refine ⟨rfl, hwnn, hsum, ?_⟩
  intro lo hi hb
  have hconst : ∀ v : ℚ,
      (∑ j ∈ Finset.range nN, W j i / colSum W nN i * v) = v := by
    intro v
    rw [← Finset.sum_mul, hsum, one_mul]
  constructor
  · have h1 : (∑ j ∈ Finset.range nN, W j i / colSum W nN i * lo) ≤
        ∑ j ∈ Finset.range nN, W j i / colSum W nN i * scores j :=
      Finset.sum_le_sum fun j hj =>
        mul_le_mul_of_nonneg_left (hb j (Finset.mem_range.1 hj)).1
          (hwnn j (Finset.mem_range.1 hj))
    rw [hconst lo] at h1
    exact h1
  · have h1 : (∑ j ∈ Finset.range nN, W j i / colSum W nN i * scores j) ≤
        ∑ j ∈ Finset.range nN, W j i / colSum W nN i * hi :=
      Finset.sum_le_sum fun j hj =>
        mul_le_mul_of_nonneg_left (hb j (Finset.mem_range.1 hj)).2
          (hwnn j (Finset.mem_range.1 hj))
    rw [hconst hi] at h1
    exact h1

unseal Rat.add Rat.mul Rat.inv in
/-- C6 (witness):  The spec's Score Propagator example: cell 2 has
weights `(1/2, 1/2)` over the two niches with scores `(0.2, 0.8)`; its score
lies within `[0.2, 0.8]`. -/
theorem C6_witness :
    (1 : ℚ)/5 ≤ cellScore wExample 2 scoresExample 2 ∧
      cellScore wExample 2 scoresExample 2 ≤ 4/5 :=
  (C6_convex_projection wExample 2 scoresExample 2 (by decide)
    (by decide)).2.2.2 (1/5) (4/5) (by decide)

/-- C7 (amended):  `get_niche_trajectory_path` performs no input
validation: no `InvalidInputError` exists anywhere in the code; under the
"BF" strategy it returns an ordering (a permutation of `range n`) for every
matrix, including matrices with negative entries. -/
theorem C7_no_input_validation :
    ∀ (n : Nat) (m : Mat),
      get_niche_trajectory_path "BF" m n = some (bfPath m n) ∧
      (bfPath m n).Perm (List.range n) := by
  intro n m
  refine ⟨by rw [get_niche_trajectory_path, if_pos rfl], ?_⟩
  exact perm_of_mem_permsLex (List.range n) (bfPath m n) (bfPath_spec m n).1

unseal Rat.add Rat.mul Rat.inv in
/-- C7 (counterexample):  `mNeg = [[0,-1],[-1,0]]` has a negative entry,
yet the BF solver returns the ordering `[0, 1]` instead of failing with an
`InvalidInputError`. -/
theorem C7_counterexample :
    mNeg 0 1 < 0 ∧ get_niche_trajectory_path "BF" mNeg 2 = some [0, 1] := by
  exact ⟨by decide, by decide⟩

/-- C8 (amended):  For `n = 2` the solver silently and deterministically
handles the two-node cycle cut: no `DegenerateTrajectoryError` exists in the
code, and for every 2×2 matrix the TSP strategy returns `[0, 1]` (whichever
of the two edges is cut). -/
theorem C8_two_node_silent (m : Mat) :
    get_niche_trajectory_path "TSP" m 2 = some [0, 1] := by
  have hbase : hk m [1] 1 = (m 0 1, [0, 1]) := by
    rw [hk_eq, if_neg (by simp)]
  have hclosed : tspClosed m 2 = [0, 1, 0] := by
    show (hk m [1] 1).2 ++ [0] = [0, 1, 0]
    rw [hbase]
    rfl
  have hdisp : get_niche_trajectory_path "TSP" m 2 = tspPath m 2 := by
    rw [get_niche_trajectory_path, if_neg (by decide), if_pos rfl]
  rw [hdisp, tspPath, hclosed, cutCycle]
  have hci : cutIndex m [0, 1, 0] =
      [m 0 1, m 1 0].indexOf (min (m 0 1) (m 1 0)) := rfl
  rcases le_or_lt (m 0 1) (m 1 0) with h | h
  · have hc0 : cutIndex m [0, 1, 0] = 0 := by
      rw [hci, min_eq_left h]
      exact List.indexOf_cons_self _ _
    rw [hc0]
    decide
  · have hc1 : cutIndex m [0, 1, 0] = 1 := by
      rw [hci, min_eq_right h.le, List.indexOf_cons_ne _ (ne_of_gt h),
        List.indexOf_cons_self]
    rw [hc1]
    decide

unseal Rat.add Rat.mul Rat.inv in
/-- C8 (counterexample):  On `mTwo` (a 2×2 matrix with two edges of
distinct weights) the solver returns the ordering `[0, 1]`: nothing is
surfaced, no `DegenerateTrajectoryError` is raised (none exists in the
code). -/
theorem C8_counterexample :
    get_niche_trajectory_path "TSP" mTwo 2 = some [0, 1] := by decide

/-- C9:  If either consolidated artifact is absent,
`load_consolidate_data` fails with the logged message before producing any
output: no `Except.ok` result exists.  (`ONTraC.log.error` is modelled from
the spec as aborting; see `load_consolidate_data`.) -/
theorem C9_missing_artifact (sFile adjFile : Option (List (List ℚ)))
    (h : sFile = none ∨ adjFile = none) :
    load_consolidate_data sFile adjFile =
      Except.error
        "consolidate_s.csv.gz or consolidate_out_adj.csv.gz does not exist in GNN_dir directory." ∧
    ∀ out, load_consolidate_data sFile adjFile ≠ Except.ok out := by
  rcases h with rfl | rfl
  · cases adjFile <;> exact ⟨rfl, fun out h => by cases h⟩
  · cases sFile <;> exact ⟨rfl, fun out h => by cases h⟩

/-- C9 (witness). -/
theorem C9_witness :
    load_consolidate_data none (some [[1]]) =
      Except.error
        "consolidate_s.csv.gz or consolidate_out_adj.csv.gz does not exist in GNN_dir directory." ∧
    ∀ out, load_consolidate_data none (some [[1]]) ≠ Except.ok out :=
  C9_missing_artifact none (some [[1]]) (Or.inl rfl)

/-- C10:  For every strategy string other than `"BF"` and `"TSP"`,
`get_niche_trajectory_path` never returns an ordering: the function body
falls through to the final `return` with `niche_trajectory_path` unbound
(`UnboundLocalError`, modelled `none`), for every input matrix. -/
theorem C10_unknown_strategy (strategy : String) (h1 : strategy ≠ "BF")
    (h2 : strategy ≠ "TSP") (m : Mat) (n : Nat) :
    get_niche_trajectory_path strategy m n = none := by
  rw [get_niche_trajectory_path, if_neg h1, if_neg h2]

/-- C10 (witness). -/
theorem C10_witness : get_niche_trajectory_path "HC" mExample 3 = none :=
  C10_unknown_strategy "HC" (by decide) (by decide) mExample 3

end ONTraC
